import Mathlib

/-!
Verification of the AskHogwarts PDF-processing pipeline.

Shallow embedding of:
  * `app/utils/text_processing.py` — `clean_text` (a fixed linear sequence of
    regex substitutions over the text);
  * `app/services/pdf_processor.py` — `PDFProcessor.__init__`,
    `PDFProcessor.process_pdf` (chunk-record assembly) and
    `PDFProcessor.save_to_json` (required-key validation);
  * the recursive character splitter used by the processor.  Its code lives in
    the external `langchain` dependency, not in this repository, so it is
    modelled from the specification (section 4.4) and marked as such below.

Strings are modelled as `List Char`; machine integers of the source are
plain `Nat` (Python integers are unbounded, so no wraparound is needed);
operations that can raise in Python return `Except PdfError`.
All definitions are executable (structural recursion only, with an explicit
fuel argument where the Python scan consumes a variable number of
characters per step; the fuel is always instantiated with the length of the
scanned list, which every step strictly decreases, so the fuel-exhausted
branch is unreachable).
-/

/-- Character class matched by Python's `\s` (restricted to the ASCII
whitespace characters; the claims under study involve only these). -/
def isPySpace (c : Char) : Bool :=
  c = ' ' || c = '\t' || c = '\n' || c = '\r' || c = '\x0b' || c = '\x0c'

/-- Character class matched by Python's `\w` (ASCII fragment). -/
def isWordChar (c : Char) : Bool :=
  c.isAlphanum || c = '_'

/-- Step 1 of `clean_text`: `re.sub(r'\s+', ' ', text)` — every maximal run
of whitespace characters is replaced by a single space.  The run's single
output space is emitted when its last character is reached. -/
def collapseWS : List Char → List Char
  | [] => []
  | c :: rest =>
    if isPySpace c then
      match rest with
      | d :: _ => if isPySpace d then collapseWS rest else ' ' :: collapseWS rest
      | [] => [' ']
    else c :: collapseWS rest

/-- Attempted match of `(\w+)-\n(\w+)` at the head of `l` (the caller has
checked that the head is a word character).  On success, returns the
replacement `\1\2` and the remainder of the string after the match. -/
def tryHyphMatch (l : List Char) : Option (List Char × List Char) :=
  let r1 := l.takeWhile isWordChar
  match l.dropWhile isWordChar with
  | '-' :: '\n' :: a2 =>
    let r2 := a2.takeWhile isWordChar
    if r2.isEmpty then none else some (r1 ++ r2, a2.dropWhile isWordChar)
  | _ => none

/-- Step 2 of `clean_text`: `re.sub(r'(\w+)-\n(\w+)', r'\1\2', text)`,
as a left-to-right scan with non-overlapping matches.  `fuel` bounds the
number of scan steps; each step consumes at least one character, so
`fuel = l.length` (see `deHyph`) makes the `0` branch unreachable. -/
def deHyphF : Nat → List Char → List Char
  | 0, l => l
  | _ + 1, [] => []
  | f + 1, c :: rest =>
    if isWordChar c then
      match tryHyphMatch (c :: rest) with
      | some (kept, rest') => kept ++ deHyphF f rest'
      | none => c :: deHyphF f rest
    else c :: deHyphF f rest

/-- Step 2 of `clean_text` (fuel instantiated). -/
def deHyph (l : List Char) : List Char :=
  deHyphF l.length l

/-- Step 3 of `clean_text`: `re.sub(r'([a-z])- ([a-z])', r'\1\2', text)`.
Matches are non-overlapping: after a replacement the scan resumes after the
second letter, exactly like Python's `re.sub`.  Same fuel discipline as
`deHyphF`. -/
def fixHyphF : Nat → List Char → List Char
  | 0, l => l
  | _ + 1, [] => []
  | f + 1, a :: rest =>
    match rest with
    | '-' :: ' ' :: b :: rest' =>
      if a.isLower && b.isLower then a :: b :: fixHyphF f rest'
      else a :: fixHyphF f rest
    | _ => a :: fixHyphF f rest

/-- Step 3 of `clean_text` (fuel instantiated). -/
def fixHyph (l : List Char) : List Char :=
  fixHyphF l.length l

/-- Step 4 of `clean_text`: `re.sub(r'\f', ' ', text)`. -/
def formFeedSub (l : List Char) : List Char :=
  l.map fun c => if c = '\x0c' then ' ' else c

/-- Characters remaining after the last `'\n'` of `l`, or `none` when `l`
contains no newline.  Used to model the greedy backtracking of
`\n\s*\n`. -/
def afterLastNL : List Char → Option (List Char)
  | [] => none
  | '\n' :: rest => some ((afterLastNL rest).getD rest)
  | _ :: rest => afterLastNL rest

/-- Attempted match of the `\s*\n` tail of `\n\s*\n` against `rest` (the
characters following an initial `'\n'`).  The greedy `\s*` with a final
backtrack to `'\n'` consumes the leading whitespace run of `rest` up to and
including its last newline; the returned list is the remainder after the
match. -/
def blankMatch (rest : List Char) : Option (List Char) :=
  match afterLastNL (rest.takeWhile isPySpace) with
  | some tail => some (tail ++ rest.dropWhile isPySpace)
  | none => none

/-- Step 5 of `clean_text`: `re.sub(r'\n\s*\n', '\n', text)`, with the same
fuel discipline as `deHyphF`. -/
def collapseBlankF : Nat → List Char → List Char
  | 0, l => l
  | _ + 1, [] => []
  | f + 1, c :: rest =>
    if c = '\n' then
      match blankMatch rest with
      | some rest' => '\n' :: collapseBlankF f rest'
      | none => '\n' :: collapseBlankF f rest
    else c :: collapseBlankF f rest

/-- Step 5 of `clean_text` (fuel instantiated). -/
def collapseBlank (l : List Char) : List Char :=
  collapseBlankF l.length l

/-- Removal of trailing whitespace (the right half of Python's
`str.strip()`). -/
def stripRight : List Char → List Char
  | [] => []
  | c :: rest =>
    match stripRight rest with
    | [] => if isPySpace c then [] else [c]
    | r => c :: r

/-- Step 6 of `clean_text`: `text.strip()`. -/
def stripWS (l : List Char) : List Char :=
  stripRight (l.dropWhile isPySpace)

/-- The whole of `clean_text` from `app/utils/text_processing.py`: the six
substitution steps applied in source order. -/
def cleanText (l : List Char) : List Char :=
  stripWS (collapseBlank (formFeedSub (fixHyph (deHyph (collapseWS l)))))

/-- String-level wrapper of `clean_text`. -/
def clean_text (s : String) : String :=
  ⟨cleanText s.data⟩

/-!
## The recursive character splitter

`PDFProcessor` delegates splitting to `RecursiveCharacterTextSplitter` from
the external `langchain` dependency; that code is not part of this
repository's sources.  The definitions below are therefore modelled from
the specification's description of the Recursive Chunker (section 4.4).
-/

/-- Modelled from the spec: the last-resort "empty-string separator" case of
the Recursive Chunker, a hard cut at the character boundary into pieces of
at most `size` characters.  `fuel` bounds the number of pieces; each step
removes at least one character when `0 < size`, so `fuel = l.length` (see
`hardCut`) makes the `0` branch unreachable. -/
def hardCutF : Nat → Nat → List Char → List (List Char)
  | _, _, [] => []
  | 0, _, l => [l]
  | f + 1, size, c :: rest =>
    (c :: rest).take size :: hardCutF f size ((c :: rest).drop size)

/-- Modelled from the spec: hard cut (fuel instantiated). -/
def hardCut (size : Nat) (l : List Char) : List (List Char) :=
  hardCutF l.length size l

/-- Split of `l` at every occurrence of the separator `sep`, dropping the
separators (Python's `str.split` / `re.split`), with the usual fuel
discipline (`sep` is only consumed when nonempty). -/
def splitOnSeqF (sep : List Char) : Nat → List Char → List (List Char)
  | _, [] => [[]]
  | 0, l => [l]
  | f + 1, c :: rest =>
    if sep ≠ [] ∧ sep.isPrefixOf (c :: rest) then
      [] :: splitOnSeqF sep f ((c :: rest).drop sep.length)
    else
      match splitOnSeqF sep f rest with
      | [] => [[c]]
      | s :: ss => (c :: s) :: ss

/-- Split at a separator (fuel instantiated). -/
def splitOnSeq (sep : List Char) (l : List Char) : List (List Char) :=
  splitOnSeqF sep l.length l

/-- Modelled from the spec: the recursive splitting phase of the Recursive
Chunker.  The text is split at the highest-priority separator; any segment
still longer than the target size is re-split with the remaining,
lower-priority separators; an exhausted separator list, or the empty-string
separator, means a hard cut at the character boundary.  The separators
themselves are dropped (the spec does not define re-insertion). -/
def recSplit (size : Nat) : List (List Char) → List Char → List (List Char)
  | [], text => hardCut size text
  | sep :: rest, text =>
    if sep = [] then hardCut size text
    else
      (splitOnSeq sep text).flatMap fun seg =>
        if seg.length ≤ size then [seg] else recSplit size rest seg

/-- Modelled from the spec: the greedy merging phase — adjacent segments are
combined into chunks of at most `size` characters (a single oversized
segment, which can only arise for `size = 0` here, stays alone). -/
def mergeGo (size : Nat) (acc : List Char) : List (List Char) → List (List Char)
  | [] => if acc.isEmpty then [] else [acc]
  | s :: rest =>
    if acc.isEmpty then mergeGo size s rest
    else if acc.length + s.length ≤ size then mergeGo size (acc ++ s) rest
    else acc :: mergeGo size s rest

/-- Modelled from the spec: greedy merging, starting from an empty
accumulator. -/
def mergeGreedy (size : Nat) (segs : List (List Char)) : List (List Char) :=
  mergeGo size [] segs

/-- Modelled from the spec: the overlap phase — every chunk after the first
is extended on the left with the last `overlap` characters of its
predecessor, the overlap being clamped to the predecessor's size minus one. -/
def addOverlapGo (ov : Nat) (prev : List Char) : List (List Char) → List (List Char)
  | [] => []
  | c :: rest =>
    (prev.drop (prev.length - min ov (prev.length - 1)) ++ c) :: addOverlapGo ov c rest

/-- Modelled from the spec: the overlap phase (the first chunk has no
leading overlap). -/
def addOverlap (ov : Nat) : List (List Char) → List (List Char)
  | [] => []
  | c :: rest => c :: addOverlapGo ov c rest

/-- Modelled from the spec: the whole Recursive Chunker, as used by
`process_pdf` through `self.text_splitter.create_documents`. -/
def create_documents (size ov : Nat) (seps : List (List Char)) (text : List Char) :
    List (List Char) :=
  addOverlap ov (mergeGreedy size (recSplit size seps text))

/-!
## The PDF processor

Embedding of `PDFProcessor` from `app/services/pdf_processor.py`.  The
parts of `process_pdf` that claims are about are the chunk-record assembly
and its failure modes; PDF loading and the spaCy NER model are external
collaborators, so the page texts and the extracted person-name set enter as
arguments.
-/

/-- Error kinds of the pipeline.  `zeroDivisionError` is Python's
`ZeroDivisionError`; `valueError` is the `ValueError` raised by
`save_to_json`; `emptyDocument` and `invalidChunkConfig` are the
specification's error vocabulary (sections 4.4, 4.5 and 7). -/
inductive PdfError where
  | fileNotFound
  | zeroDivisionError
  | valueError
  | emptyDocument
  | invalidChunkConfig
  deriving DecidableEq, Repr

/-- Configuration state stored by `PDFProcessor.__init__`. -/
structure PDFProcessor where
  chunk_size : Nat
  chunk_overlap : Nat
  separators : List (List Char)
  deriving DecidableEq, Repr

/-- Modelled from the spec: construction of the processor.  The stored
fields come straight from `PDFProcessor.__init__`; the overlap/size check
belongs to the external splitter's constructor (absent from the
repository's sources) and is modelled from section 4.4: construction fails
with `InvalidChunkConfig` when `overlap >= chunk_size`. -/
def PDFProcessor.init (chunk_size chunk_overlap : Nat) (separators : List (List Char)) :
    Except PdfError PDFProcessor :=
  if chunk_size ≤ chunk_overlap then .error .invalidChunkConfig
  else .ok ⟨chunk_size, chunk_overlap, separators⟩

/-- Default separator list of `PDFProcessor.__init__`:
`["\n\n", "\n", " ", ""]`. -/
def defaultSeparators : List (List Char) :=
  [['\n', '\n'], ['\n'], [' '], []]

/-- Python's `len(text.split())`: number of maximal nonempty runs of
non-whitespace characters.  `inWord` records whether the previous character
was part of a word. -/
def countWordsAux (inWord : Bool) : List Char → Nat
  | [] => 0
  | c :: rest =>
    if isPySpace c then countWordsAux false rest
    else (if inWord then 0 else 1) + countWordsAux true rest

/-- `word_count` of a chunk: `len(chunk.page_content.split())`. -/
def countWords (l : List Char) : Nat :=
  countWordsAux false l

/-- Python's `pat in l` for strings: containment as a contiguous
subsequence. -/
def containsSeq (pat : List Char) : List Char → Bool
  | [] => pat.isEmpty
  | c :: rest => pat.isPrefixOf (c :: rest) || containsSeq pat rest

/-- `"\n".join(page.page_content for page in pages)` from `process_pdf`. -/
def joinPages : List (List Char) → List Char
  | [] => []
  | p :: rest =>
    match rest with
    | [] => p
    | _ :: _ => p ++ '\n' :: joinPages rest

/-- One element of the `"chunks"` list built by `process_pdf` (the fields
the claims are about; `chunk_id`, timestamps and byte sizes are plain
recodings of these). -/
structure ChunkRec where
  content : List Char
  index : Nat
  page_number : Nat
  word_count : Nat
  char_count : Nat
  overlap_with_next : Nat
  people_mentioned : List (List Char)
  deriving DecidableEq, Repr, Inhabited

/-- The per-chunk record of `process_pdf` for chunk `content` at position
`i`, with `n` total chunks and `q = n // total_pages` the page-number
quotient (already checked nonzero by the caller).  `page_number` is
`i // (len(chunks) // len(pages)) + 1` from the source. -/
def mkChunk (proc : PDFProcessor) (n q : Nat) (people : List (List Char))
    (i : Nat) (content : List Char) : ChunkRec :=
  { content := content
    index := i
    page_number := i / q + 1
    word_count := countWords content
    char_count := content.length
    overlap_with_next := if i < n - 1 then proc.chunk_overlap else 0
    people_mentioned :=
      people.filter fun p => containsSeq (p.map Char.toLower) (content.map Char.toLower) }

/-- The `for i, chunk in enumerate(chunks)` comprehension of `process_pdf`,
starting at index `i`. -/
def assembleChunks (proc : PDFProcessor) (n q : Nat) (people : List (List Char)) :
    Nat → List (List Char) → List ChunkRec
  | _, [] => []
  | i, c :: rest => mkChunk proc n q people i c :: assembleChunks proc n q people (i + 1) rest

/-- The successful result of `process_pdf` (the claim-relevant parts of the
returned dictionary). -/
structure ProcessingResult where
  chunks : List ChunkRec
  total_chunks : Nat
  total_pages : Nat
  total_word_count : Nat
  total_char_count : Nat
  people_mentioned : List (List Char)
  deriving DecidableEq, Repr, Inhabited

/-- The splitter's output inside `process_pdf`:
`chunks = self.text_splitter.create_documents([all_text])` with
`all_text` the newline-join of the page texts. -/
def chunksOf (proc : PDFProcessor) (pages : List (List Char)) : List (List Char) :=
  create_documents proc.chunk_size proc.chunk_overlap proc.separators (joinPages pages)

/-- `PDFProcessor.process_pdf` on already-loaded page texts and an
already-extracted person-name set.  Faithful to the source's evaluation
order: `average_chunk_size = sum(...) / len(chunks)` raises
`ZeroDivisionError` when the splitter produced no chunks, and the first
chunk's `page_number = i // (len(chunks) // len(pages)) + 1` raises
`ZeroDivisionError` when the inner integer quotient is zero. -/
def process_pdf (proc : PDFProcessor) (pages : List (List Char))
    (people : List (List Char)) : Except PdfError ProcessingResult :=
  let chunks := chunksOf proc pages
  if chunks.length = 0 then .error .zeroDivisionError
  else if chunks.length / pages.length = 0 then .error .zeroDivisionError
  else .ok
    { chunks := assembleChunks proc chunks.length (chunks.length / pages.length) people 0 chunks
      total_chunks := chunks.length
      total_pages := pages.length
      total_word_count := (chunks.map countWords).sum
      total_char_count := (chunks.map List.length).sum
      people_mentioned := people }

/-- The five required top-level keys checked by `save_to_json`. -/
def requiredKeys : List String :=
  ["metadata", "chunks", "document_info", "people_mentioned", "processing_info"]

/-- `PDFProcessor.save_to_json`, abstracted over the file system: the
result mapping is represented by the list of its top-level keys, and the
function returns the keys it writes.  The validation (`ValueError` when a
required key is missing) happens before anything is written, exactly as in
the source. -/
def save_to_json (dataKeys : List String) : Except PdfError (List String) :=
  if requiredKeys.all (fun k => dataKeys.contains k) then .ok dataKeys
  else .error .valueError

/-- Written from the spec's words for comparison with the source's
`page_number` (claim C2): "chunk index mapped proportionally onto total
page count: `floor(index / (total_chunks / total_pages)) + 1`, clamped so
it never exceeds total page count" — with real division,
`floor(i / (n / p)) = i * p / n` on naturals. -/
def claimedPageNumber (i n p : Nat) : Nat :=
  min (i * p / n + 1) p

/-!
## Lemmas about the text normalizer

The first substitution of `clean_text` leaves no whitespace other than
isolated `' '` characters; consequently the newline- and form-feed-directed
substitutions that follow it can never fire.
-/

/-- Scan for two adjacent whitespace characters. -/
def hasWSRun : List Char → Bool
  | [] => false
  | c :: rest =>
    (match rest with
     | d :: _ => isPySpace c && isPySpace d
     | [] => false) || hasWSRun rest

/-- Test for the `([a-z])- ([a-z])` pattern at the head of the list. -/
def artifactAt : List Char → Bool
  | a :: '-' :: ' ' :: b :: _ => a.isLower && b.isLower
  | _ => false

/-- Scan for an occurrence of the `([a-z])- ([a-z])` pattern anywhere. -/
def hasArtifact : List Char → Bool
  | [] => false
  | a :: rest => artifactAt (a :: rest) || hasArtifact rest

/-!
## Concrete instances used by the claim witnesses and counterexamples
-/

def c1wProc : PDFProcessor := ⟨5, 2, defaultSeparators⟩

def c1wR : ProcessingResult :=
  (process_pdf c1wProc ["hello world foo".data] []).toOption.getD default

def c2xProc : PDFProcessor := ⟨1, 0, [['\n'], []]⟩

def c2xR : ProcessingResult :=
  (process_pdf c2xProc ["abc".data, "de".data] []).toOption.getD default

def c2wProc : PDFProcessor := ⟨1, 0, [['\n'], []]⟩

def c2wR : ProcessingResult :=
  (process_pdf c2wProc ["ab".data, "cd".data] []).toOption.getD default

def c5xProc : PDFProcessor := ⟨1000, 200, defaultSeparators⟩

def c6wProc : PDFProcessor := ⟨50, 49, defaultSeparators⟩

def c6wR : ProcessingResult :=
  (process_pdf c6wProc [List.replicate 50 'x'] []).toOption.getD default

def c9wProc : PDFProcessor := ⟨100, 0, [[' ']]⟩

theorem tryHyphMatch_none {l : List Char} (h : '\n' ∉ l) : tryHyphMatch l = none := by
  unfold tryHyphMatch
  split
  · rename_i a2 heq
    exfalso
    apply h
    have hsub : List.Sublist (l.dropWhile isWordChar) l := List.dropWhile_sublist isWordChar
    have hm : '\n' ∈ l.dropWhile isWordChar := by rw [heq]; simp
    exact hsub.mem hm
  · rfl

theorem deHyphF_of_no_nl (f : Nat) {l : List Char} (h : '\n' ∉ l) : deHyphF f l = l := by
  induction f, l using deHyphF.induct with
  | case1 l => rfl
  | case2 f => rfl
  | case3 f c rest hw kept rest' hm ih =>
    rw [tryHyphMatch_none h] at hm
    exact absurd hm (by simp)
  | case4 f c rest hw hm ih =>
    have ih' := ih fun hx => h (List.mem_cons_of_mem _ hx)
    simp [deHyphF, hw, hm, ih']
  | case5 f c rest hw ih =>
    have ih' := ih fun hx => h (List.mem_cons_of_mem _ hx)
    simp [deHyphF, hw, ih']

theorem deHyph_of_no_nl {l : List Char} (h : '\n' ∉ l) : deHyph l = l :=
  deHyphF_of_no_nl l.length h

theorem collapseBlankF_of_no_nl (f : Nat) {l : List Char} (h : '\n' ∉ l) :
    collapseBlankF f l = l := by
  induction f, l using collapseBlankF.induct with
  | case1 l => rfl
  | case2 f => rfl
  | case3 f rest tail hm ih => exact absurd (List.mem_cons_self '\n' rest) h
  | case4 f rest hm ih => exact absurd (List.mem_cons_self '\n' rest) h
  | case5 f c rest hc ih =>
    have ih' := ih fun hx => h (List.mem_cons_of_mem _ hx)
    simp [collapseBlankF, hc, ih']

theorem collapseBlank_of_no_nl {l : List Char} (h : '\n' ∉ l) : collapseBlank l = l :=
  collapseBlankF_of_no_nl l.length h

theorem formFeedSub_of_no_ff {l : List Char} (h : '\x0c' ∉ l) : formFeedSub l = l := by
  induction l with
  | nil => rfl
  | cons c rest ih =>
    have hc : ¬ c = '\x0c' := fun hcc => h (hcc ▸ List.mem_cons_self c rest)
    have ih' := ih fun hx => h (List.mem_cons_of_mem _ hx)
    simp only [formFeedSub, List.map_cons, if_neg hc] at *
    rw [ih']

theorem collapseWS_cons_of_not_ws {c : Char} (rest : List Char) (hc : ¬ isPySpace c = true) :
    collapseWS (c :: rest) = c :: collapseWS rest := by
  cases rest <;> simp [collapseWS, hc]

theorem hasWSRun_cons (c : Char) (l : List Char) :
    hasWSRun (c :: l) =
      ((l.head?.elim false fun d => isPySpace c && isPySpace d) || hasWSRun l) := by
  cases l <;> simp [hasWSRun]

theorem collapseWS_cons_ws_ws {c d : Char} (tail : List Char) (hc : isPySpace c = true)
    (hd : isPySpace d = true) : collapseWS (c :: d :: tail) = collapseWS (d :: tail) := by
  conv_lhs => rw [collapseWS]
  simp [hc, hd]

theorem collapseWS_cons_ws_nws {c d : Char} (tail : List Char) (hc : isPySpace c = true)
    (hd : ¬ isPySpace d = true) : collapseWS (c :: d :: tail) = ' ' :: collapseWS (d :: tail) := by
  conv_lhs => rw [collapseWS]
  simp [hc, hd]

theorem collapseWS_singleton_ws {c : Char} (hc : isPySpace c = true) :
    collapseWS [c] = [' '] := by
  rw [collapseWS]
  simp [hc]

/-- Every whitespace character surviving `collapseWS` is the plain space. -/
theorem collapseWS_mem_ws {l : List Char} :
    ∀ c ∈ collapseWS l, isPySpace c = true → c = ' ' := by
  induction l using collapseWS.induct with
  | case1 => intro c hc; simp [collapseWS] at hc
  | case2 c hc d tail hd ih => rw [collapseWS_cons_ws_ws tail hc hd]; exact ih
  | case3 c hc d tail hd ih =>
    intro e he hws
    rw [collapseWS_cons_ws_nws tail hc hd] at he
    rcases List.mem_cons.mp he with rfl | he'
    · rfl
    · exact ih e he' hws
  | case4 c hc =>
    intro e he hws
    rw [collapseWS_singleton_ws hc] at he
    simpa using he
  | case5 c rest hc ih =>
    intro e he hws
    rw [collapseWS_cons_of_not_ws rest hc] at he
    rcases List.mem_cons.mp he with rfl | he'
    · exact absurd hws hc
    · exact ih e he' hws

/-- `collapseWS` never produces two adjacent whitespace characters. -/
theorem collapseWS_no_run {l : List Char} : hasWSRun (collapseWS l) = false := by
  induction l using collapseWS.induct with
  | case1 => rfl
  | case2 c hc d tail hd ih => rw [collapseWS_cons_ws_ws tail hc hd]; exact ih
  | case3 c hc d tail hd ih =>
    rw [collapseWS_cons_ws_nws tail hc hd]
    rw [collapseWS_cons_of_not_ws tail hd] at ih ⊢
    simp [hasWSRun_cons, ih, hd]
  | case4 c hc => rw [collapseWS_singleton_ws hc]; rfl
  | case5 c rest hc ih =>
    rw [collapseWS_cons_of_not_ws rest hc, hasWSRun_cons]
    have hc' : isPySpace c = false := by simpa using hc
    cases hh : (collapseWS rest).head? <;> simp [hc', ih]

theorem isPySpace_eq_elems {c : Char} (h : isPySpace c = true) :
    c = ' ' ∨ c = '\t' ∨ c = '\n' ∨ c = '\r' ∨ c = '\x0b' ∨ c = '\x0c' := by
  simp only [isPySpace, Bool.or_eq_true, decide_eq_true_eq] at h
  tauto

theorem isLower_not_ws {c : Char} (h : c.isLower = true) : isPySpace c = false := by
  by_contra hx
  have hx' : isPySpace c = true := by revert hx; cases isPySpace c <;> simp
  rcases isPySpace_eq_elems hx' with rfl | rfl | rfl | rfl | rfl | rfl <;>
    exact absurd h (by decide)

theorem hasWSRun_tail {c : Char} {l : List Char} (h : hasWSRun (c :: l) = false) :
    hasWSRun l = false := by
  rw [hasWSRun_cons] at h
  exact (Bool.or_eq_false_iff.mp h).2

theorem fixHyphF_head? (f : Nat) (l : List Char) : (fixHyphF f l).head? = l.head? := by
  induction f, l using fixHyphF.induct with
  | case1 l => rfl
  | case2 f => rfl
  | case3 f c b rest' hlow ih => simp [fixHyphF, hlow]
  | case4 f c b rest' hlow ih => simp [fixHyphF, hlow]
  | case5 f c rest hshape ih =>
    rw [fixHyphF]
    · simp
    · exact hshape

theorem fixHyphF_sublist (f : Nat) (l : List Char) : List.Sublist (fixHyphF f l) l := by
  induction f, l using fixHyphF.induct with
  | case1 l => exact List.Sublist.refl l
  | case2 f => exact List.Sublist.refl []
  | case3 f c b rest' hlow ih =>
    simp only [fixHyphF, hlow, if_pos]
    exact (ih.cons₂ b).cons _ |>.cons _ |>.cons₂ c
  | case4 f c b rest' hlow ih =>
    simp only [fixHyphF, hlow, if_neg]
    exact ih.cons₂ c
  | case5 f c rest hshape ih =>
    rw [fixHyphF]
    · exact ih.cons₂ c
    · exact hshape

theorem hasArtifact_tail {c : Char} {l : List Char} (h : hasArtifact (c :: l) = false) :
    hasArtifact l = false := by
  rw [hasArtifact] at h
  exact (Bool.or_eq_false_iff.mp h).2

theorem fixHyphF_no_run (f : Nat) {l : List Char} (h : hasWSRun l = false) :
    hasWSRun (fixHyphF f l) = false := by
  induction f, l using fixHyphF.induct with
  | case1 l => exact h
  | case2 f => exact h
  | case3 f c b rest' hlow ih =>
    obtain ⟨hc0, hb0⟩ := Bool.and_eq_true_iff.mp hlow
    have hb : isPySpace b = false := isLower_not_ws hb0
    have hc : isPySpace c = false := isLower_not_ws hc0
    have hrest : hasWSRun rest' = false :=
      hasWSRun_tail (hasWSRun_tail (hasWSRun_tail (hasWSRun_tail h)))
    rw [fixHyphF, if_pos hlow]
    rw [hasWSRun_cons, hasWSRun_cons, fixHyphF_head? f rest']
    cases hh : rest'.head? <;> simp [hb, hc, ih hrest]
  | case4 f c b rest' hlow ih =>
    have htl : hasWSRun ('-' :: ' ' :: b :: rest') = false := hasWSRun_tail h
    rw [fixHyphF, if_neg hlow]
    rw [hasWSRun_cons, fixHyphF_head? f]
    simp [ih htl, isPySpace]
  | case5 f c rest hshape ih =>
    rw [fixHyphF]
    · have htl : hasWSRun rest = false := hasWSRun_tail h
      rw [hasWSRun_cons, fixHyphF_head? f]
      rw [hasWSRun_cons] at h
      rcases Bool.or_eq_false_iff.mp h with ⟨h1, h2⟩
      simp [ih htl, h1]
    · exact hshape

theorem fixHyphF_of_no_artifact (f : Nat) {l : List Char} (h : hasArtifact l = false) :
    fixHyphF f l = l := by
  induction f, l using fixHyphF.induct with
  | case1 l => rfl
  | case2 f => rfl
  | case3 f c b rest' hlow ih =>
    exfalso
    rw [hasArtifact] at h
    simp [artifactAt, hlow] at h
  | case4 f c b rest' hlow ih =>
    rw [fixHyphF, if_neg hlow]
    rw [ih (hasArtifact_tail h)]
  | case5 f c rest hshape ih =>
    rw [fixHyphF]
    · rw [ih (hasArtifact_tail h)]
    · exact hshape

theorem hasWSRun_suffix {l1 l2 : List Char} (h : hasWSRun (l1 ++ l2) = false) :
    hasWSRun l2 = false := by
  induction l1 with
  | nil => exact h
  | cons c rest ih => exact ih (hasWSRun_tail h)

theorem hasWSRun_front {l1 l2 : List Char} (h : hasWSRun (l1 ++ l2) = false) :
    hasWSRun l1 = false := by
  induction l1 with
  | nil => rfl
  | cons c rest ih =>
    cases rest with
    | nil => rfl
    | cons d t =>
      rw [List.cons_append, hasWSRun_cons, List.cons_append] at h
      rcases Bool.or_eq_false_iff.mp h with ⟨h1, h2⟩
      rw [hasWSRun_cons]
      simp only [List.head?_cons, Option.elim] at h1 ⊢
      simp [h1, ih h2]

theorem bool_false_of_not_true {b : Bool} (h : ¬ b = true) : b = false := by
  cases b
  · rfl
  · exact absurd rfl h

theorem stripRight_front (l : List Char) : ∃ t, stripRight l ++ t = l := by
  induction l using stripRight.induct with
  | case1 => exact ⟨[], rfl⟩
  | case2 c rest hr hc ih =>
    refine ⟨c :: rest, ?_⟩
    rw [stripRight, hr]
    simp [hc]
  | case3 c rest hr hc ih =>
    rcases ih with ⟨t, ht⟩
    rw [hr] at ht
    refine ⟨rest, ?_⟩
    rw [stripRight, hr]
    simp [hc]
  | case4 c rest hr ih =>
    rcases ih with ⟨t, ht⟩
    refine ⟨t, ?_⟩
    rw [stripRight]
    cases hh : stripRight rest with
    | nil => exact absurd hh hr
    | cons r rs =>
      rw [hh] at ht
      simp [← ht]

theorem stripRight_getLast_not_ws (l : List Char) :
    ∀ x, (stripRight l).getLast? = some x → isPySpace x = false := by
  induction l using stripRight.induct with
  | case1 => intro x hx; simp [stripRight] at hx
  | case2 c rest hr hc ih =>
    intro x hx
    rw [stripRight, hr] at hx
    simp [hc] at hx
  | case3 c rest hr hc ih =>
    intro x hx
    rw [stripRight, hr] at hx
    simp only [if_neg hc, List.getLast?_singleton, Option.some.injEq] at hx
    exact hx ▸ bool_false_of_not_true hc
  | case4 c rest hr ih =>
    intro x hx
    rw [stripRight] at hx
    cases hh : stripRight rest with
    | nil => exact absurd hh hr
    | cons r rs =>
      rw [hh] at hx
      rw [List.getLast?_cons_cons] at hx
      exact ih x (hh ▸ hx)

theorem stripRight_id (l : List Char)
    (h : ∀ x, l.getLast? = some x → isPySpace x = false) : stripRight l = l := by
  induction l with
  | nil => rfl
  | cons c rest ih =>
    rcases rest with _ | ⟨d, t⟩
    · have hc := h c (by simp)
      rw [stripRight, stripRight]
      simp [hc]
    · have hrest : stripRight (d :: t) = d :: t := by
        apply ih
        intro x hx
        apply h x
        rw [List.getLast?_cons_cons]
        exact hx
      rw [stripRight]
      simp [hrest]

theorem head_dropWhile_not_ws (l : List Char) :
    ∀ x, (l.dropWhile isPySpace).head? = some x → isPySpace x = false := by
  induction l with
  | nil => intro x hx; simp at hx
  | cons c rest ih =>
    intro x hx
    rw [List.dropWhile_cons] at hx
    by_cases hc : isPySpace c = true
    · rw [if_pos hc] at hx
      exact ih x hx
    · rw [if_neg hc] at hx
      simp only [List.head?_cons, Option.some.injEq] at hx
      exact hx ▸ bool_false_of_not_true hc

theorem no_nl_of_ws_space {l : List Char} (h : ∀ c ∈ l, isPySpace c = true → c = ' ') :
    '\n' ∉ l := fun hm => absurd (h '\n' hm (by decide)) (by decide)

theorem no_ff_of_ws_space {l : List Char} (h : ∀ c ∈ l, isPySpace c = true → c = ' ') :
    '\x0c' ∉ l := fun hm => absurd (h '\x0c' hm (by decide)) (by decide)

/-- The whitespace characters of `fixHyph (collapseWS l)` are all `' '`. -/
theorem fixCollapse_ws_space (l : List Char) :
    ∀ c ∈ fixHyph (collapseWS l), isPySpace c = true → c = ' ' := by
  intro c hc
  exact collapseWS_mem_ws c ((fixHyphF_sublist _ _).mem hc)

/-- Steps 2, 4 and 5 of `clean_text` never fire: after step 1 the text has
no newline and no form feed left. -/
theorem cleanText_eq_strip_fix (l : List Char) :
    cleanText l = stripWS (fixHyph (collapseWS l)) := by
  unfold cleanText
  rw [deHyph_of_no_nl (no_nl_of_ws_space fun c hc => collapseWS_mem_ws c hc),
    formFeedSub_of_no_ff (no_ff_of_ws_space (fixCollapse_ws_space l)),
    collapseBlank_of_no_nl (no_nl_of_ws_space (fixCollapse_ws_space l))]

theorem cleanText_ws_space (l : List Char) :
    ∀ c ∈ cleanText l, isPySpace c = true → c = ' ' := by
  rw [cleanText_eq_strip_fix]
  intro c hc
  apply fixCollapse_ws_space l c
  obtain ⟨t, ht⟩ := stripRight_front ((fixHyph (collapseWS l)).dropWhile isPySpace)
  have h1 : c ∈ (fixHyph (collapseWS l)).dropWhile isPySpace := by
    rw [← ht]
    exact List.mem_append_left t hc
  exact (List.dropWhile_sublist isPySpace).mem h1

theorem cleanText_no_run (l : List Char) : hasWSRun (cleanText l) = false := by
  rw [cleanText_eq_strip_fix]
  have hB : hasWSRun (fixHyph (collapseWS l)) = false :=
    fixHyphF_no_run _ collapseWS_no_run
  have hdrop : hasWSRun ((fixHyph (collapseWS l)).dropWhile isPySpace) = false := by
    apply @hasWSRun_suffix ((fixHyph (collapseWS l)).takeWhile isPySpace)
    rw [List.takeWhile_append_dropWhile]
    exact hB
  obtain ⟨t, ht⟩ := stripRight_front ((fixHyph (collapseWS l)).dropWhile isPySpace)
  unfold stripWS
  apply @hasWSRun_front _ t
  rw [ht]
  exact hdrop

theorem cleanText_head_not_ws (l : List Char) :
    ∀ x, (cleanText l).head? = some x → isPySpace x = false := by
  rw [cleanText_eq_strip_fix]
  intro x hx
  obtain ⟨t, ht⟩ := stripRight_front ((fixHyph (collapseWS l)).dropWhile isPySpace)
  apply head_dropWhile_not_ws (fixHyph (collapseWS l)) x
  rcases hh : stripWS (fixHyph (collapseWS l)) with _ | ⟨y, ys⟩
  · rw [hh] at hx; simp at hx
  · rw [hh] at hx
    simp only [List.head?_cons, Option.some.injEq] at hx
    unfold stripWS at hh
    rw [hh] at ht
    rw [← ht, hx]
    simp

theorem cleanText_last_not_ws (l : List Char) :
    ∀ x, (cleanText l).getLast? = some x → isPySpace x = false := by
  rw [cleanText_eq_strip_fix]
  exact stripRight_getLast_not_ws _

/-- On text whose whitespace is already normalized (only isolated `' '`),
step 1 of `clean_text` is the identity. -/
theorem collapseWS_id {l : List Char} (hws : ∀ c ∈ l, isPySpace c = true → c = ' ')
    (hrun : hasWSRun l = false) : collapseWS l = l := by
  induction l using collapseWS.induct with
  | case1 => rfl
  | case2 c hc d tail hd ih =>
    exfalso
    rw [hasWSRun_cons] at hrun
    rcases Bool.or_eq_false_iff.mp hrun with ⟨h1, _⟩
    simp [hc, hd] at h1
  | case3 c hc d tail hd ih =>
    have hc' : c = ' ' := hws c (List.mem_cons_self c _) hc
    rw [collapseWS_cons_ws_nws tail hc hd, hc']
    rw [ih (fun x hx hwx => hws x (List.mem_cons_of_mem c hx) hwx) (hasWSRun_tail hrun)]
  | case4 c hc =>
    have hc' : c = ' ' := hws c (List.mem_cons_self c _) hc
    rw [collapseWS_singleton_ws hc, hc']
  | case5 c rest hc ih =>
    rw [collapseWS_cons_of_not_ws rest hc]
    rw [ih (fun x hx hwx => hws x (List.mem_cons_of_mem c hx) hwx) (hasWSRun_tail hrun)]

theorem dropWhile_id_of_head {l : List Char}
    (h : ∀ x, l.head? = some x → isPySpace x = false) : l.dropWhile isPySpace = l := by
  cases l with
  | nil => rfl
  | cons c rest =>
    rw [List.dropWhile_cons, if_neg]
    rw [h c rfl]
    simp

/-- On text with no leading and no trailing whitespace, `strip` is the
identity. -/
theorem stripWS_id {l : List Char} (hh : ∀ x, l.head? = some x → isPySpace x = false)
    (hl : ∀ x, l.getLast? = some x → isPySpace x = false) : stripWS l = l := by
  unfold stripWS
  rw [dropWhile_id_of_head hh, stripRight_id l hl]

theorem fixHyph_of_no_artifact {l : List Char} (h : hasArtifact l = false) :
    fixHyph l = l :=
  fixHyphF_of_no_artifact l.length h

/-- Core of the amended idempotence claim: a second run of `clean_text`
changes nothing provided the first run's output carries no residual
`([a-z])- ([a-z])` artifact. -/
theorem cleanText_idem {l : List Char} (h : hasArtifact (cleanText l) = false) :
    cleanText (cleanText l) = cleanText l := by
  have hws := cleanText_ws_space l
  have hrun := cleanText_no_run l
  rw [cleanText]
  rw [collapseWS_id hws hrun]
  rw [deHyph_of_no_nl (no_nl_of_ws_space hws)]
  rw [fixHyph_of_no_artifact h]
  rw [formFeedSub_of_no_ff (no_ff_of_ws_space hws)]
  rw [collapseBlank_of_no_nl (no_nl_of_ws_space hws)]
  rw [stripWS_id (cleanText_head_not_ws l) (cleanText_last_not_ws l)]

theorem isLower_ne_dash {c : Char} (h : c.isLower = true) : c ≠ '-' :=
  fun hc => absurd (hc ▸ h) (by decide)

/-- Whitespace-free text passes through step 1 unchanged, exposing the
remainder. -/
theorem collapseWS_append_of_no_ws {w : List Char} (rest : List Char)
    (h : ∀ c ∈ w, isPySpace c = false) :
    collapseWS (w ++ rest) = w ++ collapseWS rest := by
  induction w with
  | nil => rfl
  | cons c tail ih =>
    rw [List.cons_append,
      collapseWS_cons_of_not_ws _ (by simp [h c (List.mem_cons_self c tail)]),
      ih fun x hx => h x (List.mem_cons_of_mem c hx)]
    rfl

theorem collapseWS_of_no_ws {w : List Char} (h : ∀ c ∈ w, isPySpace c = false) :
    collapseWS w = w := by
  have := collapseWS_append_of_no_ws [] h
  simpa [collapseWS] using this

/-- Step 3 never fires on text made of lowercase letters only (no hyphen is
present). -/
theorem fixHyphF_of_all_lower (f : Nat) {l : List Char} (h : ∀ c ∈ l, c.isLower = true) :
    fixHyphF f l = l := by
  induction f, l using fixHyphF.induct with
  | case1 l => rfl
  | case2 f => rfl
  | case3 f c b rest' hlow ih =>
    exact absurd (h '-' (by simp)) (by decide)
  | case4 f c b rest' hlow ih =>
    exact absurd (h '-' (by simp)) (by decide)
  | case5 f c rest hshape ih =>
    rw [fixHyphF]
    · rw [ih fun x hx => h x (List.mem_cons_of_mem c hx)]
    · exact hshape

/-- Step 3 joins the two lowercase halves around a `"- "` left by step 1
out of a hyphenated line break. -/
theorem fixHyphF_lower_hyph :
    ∀ (f : Nat) (w1 w2 : List Char), w1 ≠ [] → w2 ≠ [] →
      (∀ c ∈ w1, c.isLower = true) → (∀ c ∈ w2, c.isLower = true) →
      (w1 ++ '-' :: ' ' :: w2).length ≤ f →
      fixHyphF f (w1 ++ '-' :: ' ' :: w2) = w1 ++ w2 := by
  intro f w1
  induction w1 generalizing f with
  | nil => intro w2 h1; exact absurd rfl h1
  | cons a tail ih =>
    intro w2 _ h2 hl1 hl2 hf
    obtain ⟨f', rfl⟩ : ∃ f', f = f' + 1 := by
      refine ⟨f - 1, ?_⟩
      simp only [List.length_append, List.length_cons] at hf
      omega
    cases tail with
    | nil =>
      cases w2 with
      | nil => exact absurd rfl h2
      | cons b w2' =>
        have ha : a.isLower = true := hl1 a (by simp)
        have hb : b.isLower = true := hl2 b (by simp)
        show fixHyphF (f' + 1) (a :: '-' :: ' ' :: b :: w2') = a :: b :: w2'
        rw [fixHyphF, if_pos (by simp [ha, hb])]
        rw [fixHyphF_of_all_lower f' fun x hx => hl2 x (List.mem_cons_of_mem b hx)]
    | cons a' tail' =>
      have hstep :
          fixHyphF (f' + 1) ((a :: a' :: tail') ++ '-' :: ' ' :: w2) =
            a :: fixHyphF f' ((a' :: tail') ++ '-' :: ' ' :: w2) := by
        rw [List.cons_append, fixHyphF]
        intro b rest' heq
        rw [List.cons_append] at heq
        have : a' = '-' := by injection heq
        exact isLower_ne_dash (hl1 a' (by simp)) this
      rw [hstep]
      rw [ih f' w2 (by simp) h2 (fun x hx => hl1 x (List.mem_cons_of_mem a hx)) hl2
        (by simp only [List.length_append, List.length_cons] at hf ⊢; omega)]
      rfl

/-- The full normalizer on a hyphenated line break between two lowercase
words: step 1 turns the newline into a space, step 3 then removes the
`"- "`. -/
theorem cleanText_lower_hyph (w1 w2 : List Char) (h1 : w1 ≠ []) (h2 : w2 ≠ [])
    (hl1 : ∀ c ∈ w1, c.isLower = true) (hl2 : ∀ c ∈ w2, c.isLower = true) :
    cleanText (w1 ++ '-' :: '\n' :: w2) = w1 ++ w2 := by
  have hnw1 : ∀ c ∈ w1, isPySpace c = false := fun c hc => isLower_not_ws (hl1 c hc)
  have hnw2 : ∀ c ∈ w2, isPySpace c = false := fun c hc => isLower_not_ws (hl2 c hc)
  have hmem_lower : ∀ c ∈ w1 ++ w2, c.isLower = true := by
    intro c hc
    rcases List.mem_append.mp hc with hx | hx
    · exact hl1 c hx
    · exact hl2 c hx
  have hstep1 : collapseWS (w1 ++ '-' :: '\n' :: w2) = w1 ++ '-' :: ' ' :: w2 := by
    rw [collapseWS_append_of_no_ws _ hnw1]
    rw [collapseWS_cons_of_not_ws _ (by decide)]
    cases w2 with
    | nil => exact absurd rfl h2
    | cons b w2' =>
      rw [collapseWS_cons_ws_nws _ (by decide) (by simp [hnw2 b (by simp)])]
      rw [collapseWS_of_no_ws hnw2]
  have hnl : '\n' ∉ (w1 ++ '-' :: ' ' :: w2) := by
    intro hm
    rcases List.mem_append.mp hm with hx | hx
    · exact absurd (hl1 '\n' hx) (by decide)
    · rcases List.mem_cons.mp hx with heq | hx'
      · exact absurd heq (by decide)
      · rcases List.mem_cons.mp hx' with heq | hx''
        · exact absurd heq (by decide)
        · exact absurd (hl2 '\n' hx'') (by decide)
  have hstep3 : fixHyph (w1 ++ '-' :: ' ' :: w2) = w1 ++ w2 := by
    unfold fixHyph
    exact fixHyphF_lower_hyph _ w1 w2 h1 h2 hl1 hl2 (le_refl _)
  have hff : '\x0c' ∉ (w1 ++ w2) := fun hm => absurd (hmem_lower '\x0c' hm) (by decide)
  have hnl2 : '\n' ∉ (w1 ++ w2) := fun hm => absurd (hmem_lower '\n' hm) (by decide)
  unfold cleanText
  rw [hstep1, deHyph_of_no_nl hnl, hstep3, formFeedSub_of_no_ff hff,
    collapseBlank_of_no_nl hnl2]
  apply stripWS_id
  · intro x hx
    exact isLower_not_ws (hmem_lower x (List.mem_of_mem_head? (Option.mem_def.mpr hx)))
  · intro x hx
    exact isLower_not_ws (hmem_lower x (List.mem_of_mem_getLast? (Option.mem_def.mpr hx)))

/-!
## Lemmas about the splitter and the processor
-/

theorem hardCutF_bound (f size : Nat) (l : List Char) (hf : l.length ≤ f)
    (hs : 0 < size) : ∀ p ∈ hardCutF f size l, p.length ≤ size := by
  induction f generalizing l with
  | zero =>
    cases l with
    | nil => intro p hp; simp [hardCutF] at hp
    | cons c rest => simp at hf
  | succ f ih =>
    cases l with
    | nil => intro p hp; simp [hardCutF] at hp
    | cons c rest =>
      intro p hp
      rw [hardCutF] at hp
      rcases List.mem_cons.mp hp with rfl | hp'
      · exact List.length_take_le size (c :: rest)
      · refine ih _ ?_ p hp'
        rw [List.length_drop]
        simp only [List.length_cons] at hf ⊢
        omega

theorem hardCut_bound (size : Nat) (l : List Char) (hs : 0 < size) :
    ∀ p ∈ hardCut size l, p.length ≤ size :=
  hardCutF_bound l.length size l (le_refl _) hs

theorem recSplit_bound (size : Nat) (seps : List (List Char)) (text : List Char)
    (hs : 0 < size) : ∀ p ∈ recSplit size seps text, p.length ≤ size := by
  induction seps generalizing text with
  | nil => exact hardCut_bound size text hs
  | cons sep rest ih =>
    intro p hp
    rw [recSplit] at hp
    by_cases hsep : sep = []
    · rw [if_pos hsep] at hp
      exact hardCut_bound size text hs p hp
    · rw [if_neg hsep] at hp
      rcases List.mem_flatMap.mp hp with ⟨seg, _, hseg⟩
      by_cases hlen : seg.length ≤ size
      · rw [if_pos hlen] at hseg
        simpa [List.mem_singleton.mp hseg] using hlen
      · rw [if_neg hlen] at hseg
        exact ih seg p hseg

theorem mergeGo_bound (size : Nat) (acc : List Char) (segs : List (List Char))
    (hacc : acc.length ≤ size) (hsegs : ∀ s ∈ segs, s.length ≤ size) :
    ∀ p ∈ mergeGo size acc segs, p.length ≤ size := by
  induction segs generalizing acc with
  | nil =>
    intro p hp
    rw [mergeGo] at hp
    by_cases he : acc.isEmpty = true
    · rw [if_pos he] at hp; simp at hp
    · rw [if_neg he] at hp
      simpa [List.mem_singleton.mp hp] using hacc
  | cons s ss ih =>
    intro p hp
    have hs : s.length ≤ size := hsegs s (List.mem_cons_self s ss)
    have hss : ∀ x ∈ ss, x.length ≤ size := fun x hx => hsegs x (List.mem_cons_of_mem s hx)
    rw [mergeGo] at hp
    by_cases he : acc.isEmpty = true
    · rw [if_pos he] at hp
      exact ih s hs hss p hp
    · rw [if_neg he] at hp
      by_cases hfit : acc.length + s.length ≤ size
      · rw [if_pos hfit] at hp
        refine ih (acc ++ s) ?_ hss p hp
        simpa using hfit
      · rw [if_neg hfit] at hp
        rcases List.mem_cons.mp hp with rfl | hp'
        · exact hacc
        · exact ih s hs hss p hp'

theorem addOverlapGo_bound (ov size : Nat) (prev : List Char) (chunks : List (List Char))
    (hchunks : ∀ x ∈ chunks, x.length ≤ size) :
    ∀ p ∈ addOverlapGo ov prev chunks, p.length ≤ size + ov := by
  induction chunks generalizing prev with
  | nil => intro p hp; simp [addOverlapGo] at hp
  | cons c cs ih =>
    intro p hp
    rw [addOverlapGo] at hp
    rcases List.mem_cons.mp hp with rfl | hp'
    · have hc : c.length ≤ size := hchunks c (List.mem_cons_self c cs)
      rw [List.length_append, List.length_drop]
      have : prev.length - (prev.length - min ov (prev.length - 1)) ≤ ov := by
        omega
      omega
    · exact ih c (fun x hx => hchunks x (List.mem_cons_of_mem c hx)) p hp'

/-- Modelled from the spec: every chunk the Recursive Chunker produces has
at most `size + ov` characters (provided a positive target size). -/
theorem create_documents_bound (size ov : Nat) (seps : List (List Char))
    (text : List Char) (hs : 0 < size) :
    ∀ p ∈ create_documents size ov seps text, p.length ≤ size + ov := by
  intro p hp
  have hmerged : ∀ x ∈ mergeGreedy size (recSplit size seps text), x.length ≤ size :=
    mergeGo_bound size [] _ (by simp) (recSplit_bound size seps text hs)
  unfold create_documents at hp
  rcases hmg : mergeGreedy size (recSplit size seps text) with _ | ⟨c, cs⟩
  · rw [hmg] at hp; simp [addOverlap] at hp
  · rw [hmg] at hp
    rw [addOverlap] at hp
    rcases List.mem_cons.mp hp with rfl | hp'
    · have := hmerged p (by rw [hmg]; exact List.mem_cons_self p cs)
      omega
    · refine addOverlapGo_bound ov size c cs ?_ p hp'
      intro x hx
      exact hmerged x (by rw [hmg]; exact List.mem_cons_of_mem c hx)

theorem assembleChunks_length (proc : PDFProcessor) (n q : Nat) (people : List (List Char))
    (i : Nat) (cs : List (List Char)) :
    (assembleChunks proc n q people i cs).length = cs.length := by
  induction cs generalizing i with
  | nil => rfl
  | cons c rest ih => simp [assembleChunks, ih]

theorem assembleChunks_getElem (proc : PDFProcessor) (n q : Nat)
    (people : List (List Char)) (i : Nat) (cs : List (List Char)) (j : Nat)
    (hj : j < cs.length) :
    (assembleChunks proc n q people i cs).get
        ⟨j, by rw [assembleChunks_length]; exact hj⟩ =
      mkChunk proc n q people (i + j) (cs.get ⟨j, hj⟩) := by
  induction cs generalizing i j with
  | nil => simp at hj
  | cons c rest ih =>
    cases j with
    | zero => simp [assembleChunks]
    | succ j' =>
      have hj' : j' < rest.length := by simpa using hj
      have := ih (i + 1) j' hj'
      simp only [assembleChunks, List.get_cons_succ]
      rw [this]
      congr 1
      omega

/-- Inversion of a successful `process_pdf` run: the guards passed and the
result is the assembled record over the splitter's chunks. -/
theorem process_pdf_ok {proc : PDFProcessor} {pages people : List (List Char)}
    {r : ProcessingResult} (h : process_pdf proc pages people = .ok r) :
    (chunksOf proc pages).length ≠ 0 ∧
    (chunksOf proc pages).length / pages.length ≠ 0 ∧
    r.chunks = assembleChunks proc (chunksOf proc pages).length
      ((chunksOf proc pages).length / pages.length) people 0 (chunksOf proc pages) ∧
    r.total_chunks = (chunksOf proc pages).length ∧
    r.total_pages = pages.length := by
  unfold process_pdf at h
  by_cases h0 : (chunksOf proc pages).length = 0
  · rw [if_pos h0] at h
    exact absurd h (by simp)
  · rw [if_neg h0] at h
    by_cases h1 : (chunksOf proc pages).length / pages.length = 0
    · rw [if_pos h1] at h
      exact absurd h (by simp)
    · rw [if_neg h1] at h
      have hr : r = _ := (Except.ok.inj h).symm
      refine ⟨h0, h1, ?_, ?_, ?_⟩ <;> rw [hr]

/-- Per-chunk access in a successful `process_pdf` run. -/
theorem process_pdf_chunk_get {proc : PDFProcessor} {pages people : List (List Char)}
    {r : ProcessingResult} (h : process_pdf proc pages people = .ok r)
    (i : Nat) (hi : i < r.chunks.length) :
    ∃ hcs : i < (chunksOf proc pages).length,
      r.chunks.get ⟨i, hi⟩ = mkChunk proc (chunksOf proc pages).length
        ((chunksOf proc pages).length / pages.length) people i
        ((chunksOf proc pages).get ⟨i, hcs⟩) := by
  obtain ⟨h0, h1, hc, ht, hp⟩ := process_pdf_ok h
  have hlen : r.chunks.length = (chunksOf proc pages).length := by
    rw [hc, assembleChunks_length]
  refine ⟨hlen ▸ hi, ?_⟩
  have := assembleChunks_getElem proc (chunksOf proc pages).length
    ((chunksOf proc pages).length / pages.length) people 0 (chunksOf proc pages) i
    (hlen ▸ hi)
  rw [Nat.zero_add] at this
  rw [← this]
  apply List.get_of_eq hc

theorem process_pdf_chunks_length {proc : PDFProcessor} {pages people : List (List Char)}
    {r : ProcessingResult} (h : process_pdf proc pages people = .ok r) :
    r.chunks.length = (chunksOf proc pages).length := by
  obtain ⟨_, _, hc, _, _⟩ := process_pdf_ok h
  rw [hc, assembleChunks_length]

/-!
## Claims

One theorem per claim of the specification audit; counterexamples and
witnesses are closed statements over concrete inputs.
-/

/-- Claim C4, counterexample: `clean_text` is not idempotent.  On
`"a- b- c"` the hyphen-space rule fires once (matches may not overlap, so
the scan resumes after the consumed `b`), leaving `"ab- c"`, which a second
run rewrites to `"abc"`. -/
theorem c4_counterexample :
    clean_text "a- b- c" = "ab- c" ∧ clean_text (clean_text "a- b- c") = "abc" ∧
    clean_text (clean_text "a- b- c") ≠ clean_text "a- b- c" :=
  ⟨by decide, by decide, by decide⟩

/-- Claim C4 (amended): the text normalizer is idempotent on every input
whose normalized form carries no residual `([a-z])- ([a-z])` pattern —
the only pattern a first run can leave behind that a second run would
still rewrite; normalizing such already-normalized text is a no-op. -/
theorem c4_normalizer_idempotent_without_artifact (l : List Char)
    (h : hasArtifact (cleanText l) = false) :
    cleanText (cleanText l) = cleanText l :=
  cleanText_idem h

/-- Claim C4, witness: a concrete idempotence instance. -/
theorem c4_witness :
    hasArtifact (cleanText "hello   world".data) = false ∧
    cleanText (cleanText "hello   world".data) = cleanText "hello   world".data :=
  ⟨by decide, c4_normalizer_idempotent_without_artifact "hello   world".data (by decide)⟩

/-- Claim C8, counterexample: the rejoining of a word split by a trailing
hyphen across a line break does not happen for uppercase letters —
`"A-\nB"` normalizes to `"A- B"`, not `"AB"` (the dedicated
hyphen-linebreak rule never fires because the whitespace rule has already
replaced the newline by a space, and the hyphen-space rule requires
lowercase neighbours). -/
theorem c8_counterexample :
    clean_text "A-\nB" = "A- B" ∧ clean_text "A-\nB" ≠ "AB" :=
  ⟨by decide, by decide⟩

/-- Claim C8 (amended): for two nonempty words of lowercase letters split
by a trailing hyphen across a line break, the normalizer rejoins them into
one word with the hyphen and line break removed (`word-\nbreak` becomes
`wordbreak`); the rejoining is performed by the hyphen-space rule after the
whitespace rule has turned the newline into a space, and happens only for
lowercase neighbours. -/
theorem c8_rejoins_lowercase_hyphenated_linebreak (w1 w2 : List Char)
    (h1 : w1 ≠ []) (h2 : w2 ≠ [])
    (hl1 : ∀ c ∈ w1, c.isLower = true) (hl2 : ∀ c ∈ w2, c.isLower = true) :
    cleanText (w1 ++ '-' :: '\n' :: w2) = w1 ++ w2 :=
  cleanText_lower_hyph w1 w2 h1 h2 hl1 hl2

/-- Claim C8, witness: `word-\nbreak` becomes `wordbreak`. -/
theorem c8_witness :
    cleanText ("word".data ++ '-' :: '\n' :: "break".data) = "word".data ++ "break".data :=
  c8_rejoins_lowercase_hyphenated_linebreak "word".data "break".data
    (by decide) (by decide) (by decide) (by decide)

/-- Claim C10: the normalizer's output contains no newline, tab, carriage
return or form feed; every whitespace character in it is a single isolated
ASCII space with no whitespace run and no leading or trailing whitespace;
and — because the first rule already collapsed every whitespace run — the
hyphen-linebreak rule, the form-feed rule and the blank-line-collapse rule
never change anything. -/
theorem c10_output_whitespace_normalized (l : List Char) :
    (cleanText l).contains '\n' = false ∧
    (cleanText l).contains '\t' = false ∧
    (cleanText l).contains '\r' = false ∧
    (cleanText l).contains '\x0c' = false ∧
    ((cleanText l).all fun c => !(isPySpace c) || (c == ' ')) = true ∧
    hasWSRun (cleanText l) = false ∧
    ((cleanText l).head?.all fun c => !(isPySpace c)) = true ∧
    ((cleanText l).getLast?.all fun c => !(isPySpace c)) = true ∧
    deHyph (collapseWS l) = collapseWS l ∧
    formFeedSub (fixHyph (deHyph (collapseWS l))) = fixHyph (deHyph (collapseWS l)) ∧
    collapseBlank (formFeedSub (fixHyph (deHyph (collapseWS l)))) =
      formFeedSub (fixHyph (deHyph (collapseWS l))) := by
  have hws := cleanText_ws_space l
  have hnotmem : ∀ c : Char, isPySpace c = true → c ≠ ' ' → (cleanText l).contains c = false := by
    intro c hc hne
    have : c ∉ cleanText l := fun hm => hne (hws c hm hc)
    simpa using this
  have hde : deHyph (collapseWS l) = collapseWS l :=
    deHyph_of_no_nl (no_nl_of_ws_space fun c hc => collapseWS_mem_ws c hc)
  have hffs : formFeedSub (fixHyph (deHyph (collapseWS l))) =
      fixHyph (deHyph (collapseWS l)) := by
    rw [hde]
    exact formFeedSub_of_no_ff (no_ff_of_ws_space (fixCollapse_ws_space l))
  have hcb : collapseBlank (formFeedSub (fixHyph (deHyph (collapseWS l)))) =
      formFeedSub (fixHyph (deHyph (collapseWS l))) := by
    rw [hffs, hde]
    exact collapseBlank_of_no_nl (no_nl_of_ws_space (fixCollapse_ws_space l))
  refine ⟨hnotmem '\n' (by decide) (by decide), hnotmem '\t' (by decide) (by decide),
    hnotmem '\r' (by decide) (by decide), hnotmem '\x0c' (by decide) (by decide),
    ?_, cleanText_no_run l, ?_, ?_, hde, hffs, hcb⟩
  · rw [List.all_eq_true]
    intro c hc
    cases hsp : isPySpace c with
    | false => simp
    | true => simp [hws c hc hsp]
  · cases hh : (cleanText l).head? with
    | none => rfl
    | some x => simpa using cleanText_head_not_ws l x hh
  · cases hh : (cleanText l).getLast? with
    | none => rfl
    | some x => simpa using cleanText_last_not_ws l x hh

/-- Claim C1: under a valid configuration (`overlap < chunk_size`), every
chunk of a successful `process_pdf` run except the last — indeed every
chunk — has content of at most `chunk_size + chunk_overlap` characters, and
the chunk indices recorded in the result are exactly `0, 1, 2, …`:
contiguous from `0`, strictly increasing, with no gaps. -/
theorem c1_chunk_bound_and_contiguous_indices (proc : PDFProcessor)
    (pages people : List (List Char)) (r : ProcessingResult)
    (hov : proc.chunk_overlap < proc.chunk_size)
    (hr : process_pdf proc pages people = .ok r) :
    (∀ i (hi : i < r.chunks.length), i + 1 < r.chunks.length →
      (r.chunks.get ⟨i, hi⟩).content.length ≤ proc.chunk_size + proc.chunk_overlap) ∧
    (∀ i (hi : i < r.chunks.length), (r.chunks.get ⟨i, hi⟩).index = i) := by
  have hs : 0 < proc.chunk_size := by omega
  constructor
  · intro i hi _
    obtain ⟨hcs, hget⟩ := process_pdf_chunk_get hr i hi
    rw [hget]
    show ((chunksOf proc pages).get ⟨i, hcs⟩).length ≤ _
    exact create_documents_bound proc.chunk_size proc.chunk_overlap proc.separators
      (joinPages pages) hs _ (List.get_mem _ i hcs)
  · intro i hi
    obtain ⟨hcs, hget⟩ := process_pdf_chunk_get hr i hi
    rw [hget]
    rfl

/-- Claim C1, witness: a concrete three-chunk run. -/
theorem c1_witness :
    (c1wR.chunks.get ⟨0, by decide⟩).content.length ≤ 5 + 2 ∧
    (c1wR.chunks.get ⟨1, by decide⟩).index = 1 :=
  ⟨(c1_chunk_bound_and_contiguous_indices c1wProc ["hello world foo".data] [] c1wR
      (by decide) (by rfl)).1 0 (by decide) (by decide),
   (c1_chunk_bound_and_contiguous_indices c1wProc ["hello world foo".data] [] c1wR
      (by decide) (by rfl)).2 1 (by decide)⟩

/-- Claim C2, counterexample: with 5 chunks over 2 pages the source
computes `page_number = i // (5 // 2) + 1`, so chunk 4 gets page 3 — the
value is neither the claimed `floor(i / (total_chunks / total_pages)) + 1`
with real division (which is 2 after clamping, and 2 even before clamping)
nor clamped to the page count. -/
theorem c2_counterexample :
    process_pdf c2xProc ["abc".data, "de".data] [] = .ok c2xR ∧
    c2xR.total_chunks = 5 ∧
    c2xR.total_pages = 2 ∧
    (c2xR.chunks.getD 4 default).page_number = 3 ∧
    claimedPageNumber 4 5 2 = 2 ∧
    (c2xR.chunks.getD 4 default).page_number ≠ claimedPageNumber 4 5 2 ∧
    ¬ (c2xR.chunks.getD 4 default).page_number ≤ c2xR.total_pages :=
  ⟨rfl, rfl, rfl, rfl, rfl, by decide, by decide⟩

/-- Claim C2 (amended): `page_number` is
`i // (total_chunks // total_pages) + 1` with integer division at both
levels and no clamping; it never exceeds the page count when `total_pages`
divides `total_chunks`, but can exceed it otherwise (see the
counterexample). -/
theorem c2_page_number_formula (proc : PDFProcessor)
    (pages people : List (List Char)) (r : ProcessingResult)
    (hr : process_pdf proc pages people = .ok r) :
    ∀ i (hi : i < r.chunks.length),
      (r.chunks.get ⟨i, hi⟩).page_number = i / (r.total_chunks / r.total_pages) + 1 ∧
      (r.total_pages ∣ r.total_chunks →
        (r.chunks.get ⟨i, hi⟩).page_number ≤ r.total_pages) := by
  obtain ⟨h0, h1, hc, ht, hp⟩ := process_pdf_ok hr
  intro i hi
  obtain ⟨hcs, hget⟩ := process_pdf_chunk_get hr i hi
  rw [hget, ht, hp]
  constructor
  · rfl
  · intro hdvd
    show i / ((chunksOf proc pages).length / pages.length) + 1 ≤ pages.length
    obtain ⟨k, hk⟩ := hdvd
    have hplen : 0 < pages.length := by
      by_contra hple
      have : pages.length = 0 := by omega
      rw [this, Nat.div_zero] at h1
      exact h1 rfl
    have hq : (chunksOf proc pages).length / pages.length = k := by
      rw [hk, Nat.mul_div_cancel_left _ hplen]
    have hkpos : 0 < k := by
      by_contra hknz
      have : k = 0 := by omega
      rw [this] at hq
      exact h1 hq
    rw [hq]
    have hi' : i < pages.length * k := by
      rw [← hk]
      rw [process_pdf_chunks_length hr] at hi
      exact hi
    have := (Nat.div_lt_iff_lt_mul hkpos).mpr hi'
    omega

/-- Claim C2, witness: with 4 chunks over 2 pages (an exact division) the
formula holds and stays within the page count. -/
theorem c2_witness :
    (c2wR.chunks.get ⟨3, by decide⟩).page_number =
      3 / (c2wR.total_chunks / c2wR.total_pages) + 1 ∧
    (c2wR.chunks.get ⟨3, by decide⟩).page_number ≤ c2wR.total_pages :=
  ⟨(c2_page_number_formula c2wProc ["ab".data, "cd".data] [] c2wR (by rfl) 3
      (by decide)).1,
   (c2_page_number_formula c2wProc ["ab".data, "cd".data] [] c2wR (by rfl) 3
      (by decide)).2 (by decide)⟩

/-- Claim C3: constructing the processor with `chunk_overlap >= chunk_size`
fails with `InvalidChunkConfig` before any text is processed, and with
`chunk_overlap < chunk_size` succeeds, storing the parameters unchanged;
the check lives in construction only — no `process_pdf` run ever raises
`InvalidChunkConfig`. -/
theorem c3_construction_time_validation :
    (∀ (size ov : Nat) (seps : List (List Char)), size ≤ ov →
      PDFProcessor.init size ov seps = .error .invalidChunkConfig) ∧
    (∀ (size ov : Nat) (seps : List (List Char)), ov < size →
      PDFProcessor.init size ov seps = .ok ⟨size, ov, seps⟩) ∧
    (∀ (proc : PDFProcessor) (pages people : List (List Char)),
      process_pdf proc pages people ≠ .error .invalidChunkConfig) := by
  refine ⟨?_, ?_, ?_⟩
  · intro size ov seps h
    unfold PDFProcessor.init
    rw [if_pos h]
  · intro size ov seps h
    unfold PDFProcessor.init
    rw [if_neg (by omega)]
  · intro proc pages people h
    unfold process_pdf at h
    by_cases h0 : (chunksOf proc pages).length = 0
    · rw [if_pos h0] at h
      exact absurd (Except.error.inj h) (by decide)
    · rw [if_neg h0] at h
      by_cases h1 : (chunksOf proc pages).length / pages.length = 0
      · rw [if_pos h1] at h
        exact absurd (Except.error.inj h) (by decide)
      · rw [if_neg h1] at h
        exact absurd h (by simp)

/-- Claim C3, witness: concrete accept / reject instances. -/
theorem c3_witness :
    PDFProcessor.init 50 50 defaultSeparators = .error .invalidChunkConfig ∧
    PDFProcessor.init 50 49 defaultSeparators = .ok ⟨50, 49, defaultSeparators⟩ :=
  ⟨c3_construction_time_validation.1 50 50 defaultSeparators (by decide),
   c3_construction_time_validation.2.1 50 49 defaultSeparators (by decide)⟩
/-- Claim C5, counterexample: on a document with zero extractable chunks
(one empty page) `process_pdf` fails with Python's `ZeroDivisionError`
(raised while computing `average_chunk_size = sum(...) / len(chunks)`),
not with a dedicated `EmptyDocument` error — no such error exists anywhere
in the source. -/
theorem c5_counterexample :
    process_pdf c5xProc [[]] [] = .error .zeroDivisionError ∧
    PdfError.zeroDivisionError ≠ PdfError.emptyDocument :=
  ⟨rfl, by decide⟩

/-- Claim C5 (amended): if the splitter yields zero chunks, `process_pdf`
fails — with an incidental `ZeroDivisionError` from the
`average_chunk_size` computation rather than a dedicated `EmptyDocument`
error — and a successful run never carries an empty chunk sequence. -/
theorem c5_zero_chunks_fail (proc : PDFProcessor) (pages people : List (List Char)) :
    (chunksOf proc pages = [] →
      process_pdf proc pages people = .error .zeroDivisionError) ∧
    (∀ r, process_pdf proc pages people = .ok r → r.chunks ≠ []) := by
  constructor
  · intro h
    unfold process_pdf
    rw [if_pos (by rw [h]; rfl)]
  · intro r hr hnil
    obtain ⟨h0, _, _, _, _⟩ := process_pdf_ok hr
    have hlen := process_pdf_chunks_length hr
    rw [hnil] at hlen
    exact h0 hlen.symm

/-- Claim C5, witness: the empty-page run fails. -/
theorem c5_witness :
    chunksOf c5xProc [[]] = [] ∧
    process_pdf c5xProc [[]] [] = .error .zeroDivisionError :=
  ⟨rfl, (c5_zero_chunks_fail c5xProc [[]] []).1 rfl⟩

/-- Claim C6: in every successful run, `overlap_with_next` equals the
configured overlap for every chunk but the last, and `0` for the last
chunk; in particular a single-chunk document gets `overlap_with_next = 0`. -/
theorem c6_overlap_with_next (proc : PDFProcessor)
    (pages people : List (List Char)) (r : ProcessingResult)
    (hr : process_pdf proc pages people = .ok r) :
    ∀ i (hi : i < r.chunks.length),
      (i + 1 < r.chunks.length →
        (r.chunks.get ⟨i, hi⟩).overlap_with_next = proc.chunk_overlap) ∧
      (i + 1 = r.chunks.length →
        (r.chunks.get ⟨i, hi⟩).overlap_with_next = 0) := by
  intro i hi
  obtain ⟨hcs, hget⟩ := process_pdf_chunk_get hr i hi
  have hlen := process_pdf_chunks_length hr
  rw [hget]
  constructor
  · intro hlt
    show (if i < (chunksOf proc pages).length - 1 then proc.chunk_overlap else 0) = _
    rw [if_pos (by omega)]
  · intro heq
    show (if i < (chunksOf proc pages).length - 1 then proc.chunk_overlap else 0) = 0
    rw [if_neg (by omega)]

/-- Claim C6, witness: the spec's overlap-clamp scenario — chunk size 50,
overlap 49, a single 50-character segment — produces exactly one chunk
whose `overlap_with_next` is `0`. -/
theorem c6_witness :
    c6wR.chunks.length = 1 ∧
    (c6wR.chunks.get ⟨0, by decide⟩).overlap_with_next = 0 :=
  ⟨by decide,
   (c6_overlap_with_next c6wProc [List.replicate 50 'x'] [] c6wR (by rfl) 0
      (by decide)).2 (by decide)⟩

/-- Claim C7: `save_to_json` fails with `ValueError` — before anything is
written — on every result mapping missing one of the five required
top-level keys, and a result carrying all five keys passes the
validation. -/
theorem c7_save_to_json_key_validation (dataKeys : List String) :
    ((∃ k ∈ requiredKeys, k ∉ dataKeys) → save_to_json dataKeys = .error .valueError) ∧
    ((∀ k ∈ requiredKeys, k ∈ dataKeys) → save_to_json dataKeys = .ok dataKeys) := by
  by_cases hall : requiredKeys.all (fun k => dataKeys.contains k) = true
  · constructor
    · rintro ⟨k, hk, hnk⟩
      exact absurd (by simpa using List.all_eq_true.mp hall k hk) hnk
    · intro _
      unfold save_to_json
      rw [if_pos hall]
  · constructor
    · intro _
      unfold save_to_json
      rw [if_neg hall]
    · intro hgood
      exfalso
      apply hall
      rw [List.all_eq_true]
      intro k hk
      simpa using hgood k hk

/-- Claim C7, witness: a mapping missing `"chunks"` is rejected; the full
key set passes. -/
theorem c7_witness :
    save_to_json ["metadata"] = .error .valueError ∧
    save_to_json requiredKeys = .ok requiredKeys :=
  ⟨(c7_save_to_json_key_validation ["metadata"]).1 ⟨"chunks", by decide, by decide⟩,
   (c7_save_to_json_key_validation requiredKeys).2 fun k hk => hk⟩

/-- Claim C9: whenever the splitter produces at least one chunk but fewer
chunks than the document has pages, the page-number quotient
`len(chunks) // len(pages)` is zero, and `process_pdf` fails with
`ZeroDivisionError` instead of returning a result. -/
theorem c9_fewer_chunks_than_pages_divzero (proc : PDFProcessor)
    (pages people : List (List Char))
    (h1 : 0 < (chunksOf proc pages).length)
    (h2 : (chunksOf proc pages).length < pages.length) :
    (chunksOf proc pages).length / pages.length = 0 ∧
    process_pdf proc pages people = .error .zeroDivisionError := by
  have hq := Nat.div_eq_of_lt h2
  refine ⟨hq, ?_⟩
  unfold process_pdf
  rw [if_neg (by omega), if_pos hq]
/-- Claim C9, witness: one chunk over two pages raises. -/
theorem c9_witness :
    process_pdf c9wProc ["ab".data, "cd".data] [] = .error .zeroDivisionError :=
  (c9_fewer_chunks_than_pages_divzero c9wProc ["ab".data, "cd".data] []
    (by decide) (by decide)).2
